import Mathlib

/-!
Verification of the name-matching and romanization core of the Naeilum
application (`src/app.py`).

Python strings are modelled as `List Char`; Python floats are modelled as
exact rationals (`ℚ`).  Calls into the Python standard library that the
application makes — `unicodedata.normalize`/`unicodedata.category`,
`difflib.SequenceMatcher.ratio`, `hashlib.md5` and the pseudo-random
generator — are modelled as explicit function parameters, and theorems that
depend on their behaviour assume exactly the properties those library
functions document (e.g. a similarity ratio lies in `[0, 1]` and identical
sequences have ratio `1`).  Everything else is translated directly from the
source.
-/

namespace Naeilum

/-- Python strings, modelled as lists of unicode scalar values. -/
abbrev Str := List Char

/-- Python `str.rstrip()` restricted to whitespace: drop trailing whitespace. -/
def pyRstrip (s : Str) : Str :=
  (s.reverse.dropWhile Char.isWhitespace).reverse

/-- ASCII lower-casing, the behaviour of Python `str.lower` on the ASCII
letters (the only characters our claims ever lower-case). -/
def pyToLower (c : Char) : Char :=
  if 65 ≤ c.toNat ∧ c.toNat ≤ 90 then Char.ofNat (c.toNat + 32) else c

/-- ASCII upper-casing, the behaviour of Python `str.upper` on ASCII letters. -/
def pyToUpper (c : Char) : Char :=
  if 97 ≤ c.toNat ∧ c.toNat ≤ 122 then Char.ofNat (c.toNat - 32) else c

/-- Lower-case a whole string. -/
def lowerStr (s : Str) : Str := s.map pyToLower

/-- Upper-case a whole string. -/
def upperStr (s : Str) : Str := s.map pyToUpper

/-- The character class of the regex `[^a-zA-Z0-9]`'s complement:
ASCII letters and digits. -/
def asciiAlnum (c : Char) : Bool :=
  decide ((65 ≤ c.toNat ∧ c.toNat ≤ 90) ∨ (97 ≤ c.toNat ∧ c.toNat ≤ 122) ∨
    (48 ≤ c.toNat ∧ c.toNat ≤ 57))

/-- The character class of the regex `[^a-zA-Z]`'s complement: ASCII letters. -/
def asciiAlpha (c : Char) : Bool :=
  decide ((65 ≤ c.toNat ∧ c.toNat ≤ 90) ∨ (97 ≤ c.toNat ∧ c.toNat ≤ 122))

/-- Characters that are ASCII lower-case letters or digits: exactly the
characters that can appear in a normalizer's output. -/
def lowerAlnum (c : Char) : Prop :=
  (97 ≤ c.toNat ∧ c.toNat ≤ 122) ∨ (48 ≤ c.toNat ∧ c.toNat ≤ 57)

instance (c : Char) : Decidable (lowerAlnum c) := by
  unfold lowerAlnum; infer_instance

/-! ## Hangul romanizer (`app.py` lines 43-56, 177-192) -/

/-- Start of the precomposed Hangul syllable block. -/
def HANGUL_BASE : ℕ := 0xAC00

/-- End of the precomposed Hangul syllable block. -/
def HANGUL_LAST : ℕ := 0xD7A3

/-- Lead-consonant romanization table (19 entries). -/
def CHO_ROMA : List Str :=
  List.map String.toList
    ["g", "kk", "n", "d", "tt", "r", "m", "b", "pp", "s", "ss", "",
     "j", "jj", "ch", "k", "t", "p", "h"]

/-- Vowel romanization table (21 entries). -/
def JUNG_ROMA : List Str :=
  List.map String.toList
    ["a", "ae", "ya", "yae", "eo", "e", "yeo", "ye", "o", "wa", "wae", "oe",
     "yo", "u", "wo", "we", "wi", "yu", "eu", "ui", "i"]

/-- Tail-consonant romanization table (28 entries, empty tail first). -/
def JONG_ROMA : List Str :=
  List.map String.toList
    ["", "k", "k", "ks", "n", "nj", "nh", "t", "l", "lk", "lm", "lp", "lt",
     "lp", "lh", "m", "p", "ps", "t", "t", "ng", "t", "t", "k", "t", "p", "t", "h"]

/-- Romanize one Hangul syllable (`romanize_syllable`): decompose the offset
from the block base in base-588/base-28, look the three indices up in the
fixed tables, concatenate and strip trailing whitespace; characters outside
the block pass through unchanged. -/
def romanize_syllable (c : Char) : Str :=
  if HANGUL_BASE ≤ c.toNat ∧ c.toNat ≤ HANGUL_LAST then
    pyRstrip (CHO_ROMA.getD ((c.toNat - HANGUL_BASE) / 588) []
      ++ JUNG_ROMA.getD (((c.toNat - HANGUL_BASE) % 588) / 28) []
      ++ JONG_ROMA.getD ((c.toNat - HANGUL_BASE) % 28) [])
  else [c]

/-- Romanize a full string (`romanize_korean_text`): each character
independently, concatenated. -/
def romanize_korean_text (s : Str) : Str :=
  (s.map romanize_syllable).flatten

/-! ## Text normalizers (`app.py` lines 152-157, 218-224)

`unicodedata.normalize("NFD", ·)` and the combining-mark test derived from
`unicodedata.category` are external library calls; they appear as the
parameters `nfd` and `isMn`. -/

/-- The normalizer `normalize_name`: NFD-decompose, drop combining marks,
keep only ASCII letters and digits, lower-case. -/
def normalize_name (nfd : Str → Str) (isMn : Char → Bool) (s : Str) : Str :=
  lowerStr (((nfd s).filter (fun c => !(isMn c))).filter asciiAlnum)

/-- The normalizer `normalize_romanization`: NFD-decompose, drop combining
marks, keep only ASCII letters (digits excluded), lower-case. -/
def normalize_romanization (nfd : Str → Str) (isMn : Char → Bool) (s : Str) : Str :=
  lowerStr (((nfd s).filter (fun c => !(isMn c))).filter asciiAlpha)

/-! ## Name entries (`app.py` data model) -/

/-- The `romanization` field of a catalog entry: absent, a single string or a
list of strings, as the JSON data may provide. -/
inductive RomField where
  | absent : RomField
  | single : Str → RomField
  | many : List Str → RomField
deriving DecidableEq, Repr

/-- One catalog record (`NameEntry`).  Missing optional string fields are
modelled by the empty string, matching the `entry.get(key, "")` reads in the
source; `special_match` is `none` when the key is absent. -/
structure NameEntry where
  name : Str
  hanja : Str
  meaning : Str
  category : Str
  initial : Str
  romanization : RomField
  special_match : Option Str
deriving DecidableEq, Repr

/-- Truthiness of an optional string as Python's `if value:` sees it:
present and non-empty. -/
def pyTruthy (o : Option Str) : Bool :=
  match o with
  | none => false
  | some s => decide (s ≠ [])

/-- Case-insensitive de-duplication preserving first-seen order, as in
`get_candidate_romanization`'s `seen` set; `seen` holds lower-cased keys. -/
def dedupCI (seen : List Str) : List Str → List Str
  | [] => []
  | c :: rest =>
    if lowerStr c ∈ seen then dedupCI seen rest
    else c :: dedupCI (lowerStr c :: seen) rest

/-- All romanization candidates of an entry (`get_candidate_romanization`):
the explicitly provided non-empty romanization strings, then the romanized
Hangul name (when the name is non-empty), de-duplicated case-insensitively;
if nothing remains, the raw `name` field is the sole candidate. -/
def get_candidate_romanization (e : NameEntry) : List Str :=
  let provided : List Str :=
    match e.romanization with
    | RomField.absent => []
    | RomField.single s => List.filter (fun v => decide (v ≠ [])) [s]
    | RomField.many l => List.filter (fun v => decide (v ≠ [])) l
  let candidates : List Str :=
    if e.name ≠ [] then provided ++ [romanize_korean_text e.name] else provided
  let deduped := dedupCI [] candidates
  if deduped = [] then [e.name] else deduped

/-! ## Similarity scorer (`app.py` lines 227-249)

`difflib.SequenceMatcher(None, a, b).ratio()` is an external library call,
modelled by the parameter `ratioFn`. -/

/-- Python's `round` at a half-integer rounds to the even neighbour. -/
def roundHalfEven (q : ℚ) : ℤ :=
  if q - ⌊q⌋ = 1/2 then (if ⌊q⌋ % 2 = 0 then ⌊q⌋ else ⌊q⌋ + 1) else round q

/-- Python `round(q, 6)`: round to six decimal places, ties to even. -/
def pyRound6 (q : ℚ) : ℚ :=
  (roundHalfEven (q * 1000000) : ℚ) / 1000000

/-- The slice `s[-1:]`: the last character of `s` as a (possibly empty) string. -/
def takeLast1 (s : Str) : Str := (s.reverse.take 1).reverse

/-- The per-variant adjustments of `compute_similarity_score`: `+0.08` when
the first characters agree, `+0.04` when the last characters agree, minus a
length-mismatch penalty of `0.015` per character capped at `0.15`.  `r` is
the base sequence-alignment ratio of the two normalized strings. -/
def adjustRatio (r : ℚ) (en cn : Str) : ℚ :=
  ((r + (if en.take 1 = cn.take 1 then 8/100 else 0))
      + (if takeLast1 en = takeLast1 cn then 4/100 else 0))
    - min (15/100) ((((en.length : ℤ) - (cn.length : ℤ)).natAbs : ℚ) * (15/1000))

/-- One step of the best-score fold over the candidate variants: skip a
variant whose normalization is empty, otherwise take the maximum of the
accumulator and the variant's adjusted ratio. -/
def variantStep (ratioFn : Str → Str → ℚ) (nfd : Str → Str) (isMn : Char → Bool)
    (en : Str) (acc : ℚ) (cand : Str) : ℚ :=
  let cn := normalize_romanization nfd isMn cand
  if cn = [] then acc else max acc (adjustRatio (ratioFn en cn) en cn)

/-- The similarity score (`compute_similarity_score`): normalize the input
(empty → `0.0`), take the best adjusted ratio over the candidate variants
starting from `0.0`, add `+0.03` when the entry's `initial` matches the
input's first letter case-insensitively, and round to six decimals. -/
def compute_similarity_score (ratioFn : Str → Str → ℚ) (nfd : Str → Str)
    (isMn : Char → Bool) (english_name : Str) (e : NameEntry) : ℚ :=
  let en := normalize_romanization nfd isMn english_name
  if en = [] then 0
  else
    let best := (get_candidate_romanization e).foldl (variantStep ratioFn nfd isMn en) 0
    let best2 := if upperStr e.initial = upperStr (en.take 1) then best + 3/100 else best
    pyRound6 best2

/-! ## Selection engine (`app.py` lines 252-306)

The process-wide catalog `NAMES_DATA` appears as the parameter `namesData`
(its `dict.get(gender, [])` lookup is the application of that function); the
global random generator's successive `random.random()` draws appear as the
sequence `tieBreak`, and `random.shuffle` as the permutation `shuffleFn`. -/

/-- Whether an entry triggers the special-match pass for a normalized input:
a truthy `special_match` field whose normalization equals the input's. -/
def isSpecialHit (nfd : Str → Str) (isMn : Char → Bool) (normInput : Str)
    (e : NameEntry) : Bool :=
  pyTruthy e.special_match &&
    decide (normalize_name nfd isMn (e.special_match.getD []) = normInput)

/-- The special-match pass: seed the selection with the first entry, in
catalog order, whose `special_match` matches the normalized input; at most
one entry is taken (the loop breaks at the first hit). -/
def specialSelections (nfd : Str → Str) (isMn : Char → Bool)
    (catalog : List NameEntry) (normInput : Str) : List NameEntry :=
  match catalog.find? (isSpecialHit nfd isMn normInput) with
  | some e => [e]
  | none => []

/-- A scored candidate: similarity score, random tie-break value, entry. -/
abbrev Scored := ℚ × ℚ × NameEntry

/-- Strict ranking order of `scored_candidates.sort(key=(-score, rand))`:
`a` comes strictly before `b` when `a`'s score is larger, or scores are
equal and `a`'s tie-break value is smaller. -/
def rankedBefore (a b : Scored) : Prop :=
  b.1 < a.1 ∨ (a.1 = b.1 ∧ a.2.1 < b.2.1)

instance (a b : Scored) : Decidable (rankedBefore a b) := by
  unfold rankedBefore; infer_instance

/-- Stable insertion into a ranked list: place `x` before the first element
that does not strictly precede it. -/
def insertRanked (x : Scored) : List Scored → List Scored
  | [] => [x]
  | y :: ys => if rankedBefore y x then y :: insertRanked x ys else x :: y :: ys

/-- Stable sort of the scored candidates by descending score, ties broken by
ascending random value — the `list.sort` call of the source. -/
def rankCandidates (l : List Scored) : List Scored :=
  l.foldr insertRanked []

/-- The mutable state of the diversity-selection loop: the selections list
and the three `seen` sets (sets of strings, modelled as lists). -/
structure WalkState where
  selections : List NameEntry
  seenI : List Str
  seenC : List Str
  seenN : List Str
deriving DecidableEq, Repr

/-- One iteration of the diversity-selection loop over a ranked candidate:
stop at five selections; skip a name already seen; while fewer than three
are selected skip a seen initial; from three selections on skip a seen
category; otherwise append the entry and record its non-empty name, initial
and category. -/
def walkStep (st : WalkState) (c : Scored) : WalkState :=
  if 5 ≤ st.selections.length then st
  else
    let e := c.2.2
    if e.name ∈ st.seenN then st
    else if e.initial ∈ st.seenI ∧ st.selections.length < 3 then st
    else if e.category ∈ st.seenC ∧ 3 ≤ st.selections.length then st
    else
      { selections := st.selections ++ [e]
        seenN := if e.name ≠ [] then e.name :: st.seenN else st.seenN
        seenI := if e.initial ≠ [] then e.initial :: st.seenI else st.seenI
        seenC := if e.category ≠ [] then e.category :: st.seenC else st.seenC }

/-- The diversity walk and backfill, the second half of
`select_korean_names`: run the walk over the ranked candidates starting from
the seeded selections with empty `seen` sets, and when fewer than five were
chosen backfill from a shuffle of the catalog entries not yet selected and
with unseen names; return at most five. -/
def selectTail (catalog sel : List NameEntry) (ranked : List Scored)
    (shuffleFn : List NameEntry → List NameEntry) : List NameEntry :=
  let st := ranked.foldl walkStep ⟨sel, [], [], []⟩
  let afterWalk := st.selections
  let final :=
    if afterWalk.length < 5 then
      afterWalk ++ (shuffleFn (catalog.filter
        (fun e => !(decide (e ∈ afterWalk)) && !(decide (e.name ∈ st.seenN))))).take
        (5 - afterWalk.length)
    else afterWalk
  final.take 5

/-- The selection engine (`select_korean_names`): empty catalog → empty
result; otherwise seed with the special-match pass, score and rank the
remaining entries without a truthy `special_match`, then run the diversity
walk and backfill (`selectTail`). -/
def select_korean_names (namesData : Str → List NameEntry)
    (ratioFn : Str → Str → ℚ) (nfd : Str → Str) (isMn : Char → Bool)
    (tieBreak : ℕ → ℚ) (shuffleFn : List NameEntry → List NameEntry)
    (original_name : Str) (gender : Str) : List NameEntry :=
  let gender_names := namesData gender
  if gender_names = [] then []
  else
    let normalized_input := normalize_name nfd isMn original_name
    let selections := specialSelections nfd isMn gender_names normalized_input
    let remaining := gender_names.filter
      (fun e => !(decide (e ∈ selections)) && !(pyTruthy e.special_match))
    let scored : List Scored := remaining.enum.map
      (fun p => (compute_similarity_score ratioFn nfd isMn original_name p.2,
        tieBreak p.1, p.2))
    selectTail gender_names selections (rankCandidates scored) shuffleFn

/-! ## Fortune generator (`app.py` lines 309-335)

`hashlib.md5(...).hexdigest()` appears as the parameter `md5hex`, and the
call-local `random.Random(seed)` instance as a state type `R` with an
initializer `rInit` (seeding from the digest string) and a choice function
`rChoice` that, given the state and a list length, returns the chosen index
and the successor state. -/

/-- A fortune message as stored in the catalog: either a `{en, ko}` object
or a bare value whose string rendering is used with an empty Korean text. -/
inductive PyMessage where
  | obj : Str → Str → PyMessage
  | raw : Str → PyMessage
deriving DecidableEq, Repr

/-- One fortune category of `FORTUNES_DATA`. -/
structure FortuneCategory where
  category : Str
  category_ko : Option Str
  messages : List PyMessage
deriving DecidableEq, Repr

/-- One entry of a daily-fortune result. -/
structure FortuneResult where
  category : Str
  category_ko : Str
  message : Str
  message_ko : Str
deriving DecidableEq, Repr

/-- The per-category loop of `get_daily_fortune`, threading the call-local
generator state: categories without messages are skipped, every other
category contributes the message the generator picks. -/
def fortuneAux {R : Type} (rChoice : R → ℕ → ℕ × R) :
    R → List FortuneCategory → List FortuneResult
  | _, [] => []
  | r, cd :: rest =>
    if cd.messages = [] then fortuneAux rChoice r rest
    else
      let pick := rChoice r cd.messages.length
      let mo := cd.messages.getD pick.1 (PyMessage.raw [])
      let pair : Str × Str :=
        match mo with
        | PyMessage.obj en ko => (en, ko)
        | PyMessage.raw s => (s, [])
      { category := cd.category
        category_ko := cd.category_ko.getD cd.category
        message := pair.1
        message_ko := pair.2 } :: fortuneAux rChoice pick.2 rest

/-- The daily fortune (`get_daily_fortune`): seed a fresh generator from the
digest of the concatenation of the name and the date and walk the fortune
catalog in order. -/
def get_daily_fortune {R : Type} (rInit : Str → R) (rChoice : R → ℕ → ℕ × R)
    (md5hex : Str → Str) (fortunesData : List FortuneCategory)
    (korean_name today : Str) : List FortuneResult :=
  fortuneAux rChoice (rInit (md5hex (korean_name ++ today))) fortunesData

/-! ## Helper lemmas -/

theorem char_toNat_ofNat {n : ℕ} (h : n < 55296) : (Char.ofNat n).toNat = n := by
  unfold Char.ofNat
  rw [dif_pos (Or.inl h)]
  rfl

theorem pyToLower_lowerAlnum {c : Char} (h : asciiAlnum c = true) :
    lowerAlnum (pyToLower c) := by
  unfold asciiAlnum at h
  rw [decide_eq_true_eq] at h
  unfold pyToLower lowerAlnum
  by_cases hc : 65 ≤ c.toNat ∧ c.toNat ≤ 90
  · rw [if_pos hc, char_toNat_ofNat (by omega)]
    omega
  · rw [if_neg hc]
    omega

theorem pyToLower_alpha {c : Char} (h : asciiAlpha c = true) :
    97 ≤ (pyToLower c).toNat ∧ (pyToLower c).toNat ≤ 122 := by
  unfold asciiAlpha at h
  rw [decide_eq_true_eq] at h
  unfold pyToLower
  by_cases hc : 65 ≤ c.toNat ∧ c.toNat ≤ 90
  · rw [if_pos hc, char_toNat_ofNat (by omega)]
    omega
  · rw [if_neg hc]
    omega

theorem pyToLower_fix {c : Char} (h : lowerAlnum c) : pyToLower c = c := by
  unfold lowerAlnum at h
  unfold pyToLower
  rw [if_neg (by omega)]

theorem lowerAlnum_asciiAlnum {c : Char} (h : lowerAlnum c) : asciiAlnum c = true := by
  unfold lowerAlnum at h
  unfold asciiAlnum
  rw [decide_eq_true_eq]
  omega

theorem lowerAlpha_asciiAlpha {c : Char} (h : 97 ≤ c.toNat ∧ c.toNat ≤ 122) :
    asciiAlpha c = true := by
  unfold asciiAlpha
  rw [decide_eq_true_eq]
  omega

/-- Characters of `normalize_name`'s output are lower-case ASCII letters or
digits. -/
theorem normalize_name_chars (nfd : Str → Str) (isMn : Char → Bool) (x : Str) :
    ∀ c ∈ normalize_name nfd isMn x, lowerAlnum c := by
  intro c hc
  unfold normalize_name lowerStr at hc
  rw [List.mem_map] at hc
  obtain ⟨c', hc', rfl⟩ := hc
  exact pyToLower_lowerAlnum (List.of_mem_filter hc')

/-- Characters of `normalize_romanization`'s output are lower-case ASCII
letters. -/
theorem normalize_romanization_chars (nfd : Str → Str) (isMn : Char → Bool) (x : Str) :
    ∀ c ∈ normalize_romanization nfd isMn x,
      97 ≤ c.toNat ∧ c.toNat ≤ 122 := by
  intro c hc
  unfold normalize_romanization lowerStr at hc
  rw [List.mem_map] at hc
  obtain ⟨c', hc', rfl⟩ := hc
  exact pyToLower_alpha (List.of_mem_filter hc')

/-- A string all of whose characters are fixed by the normalization pipeline
is itself fixed by `lowerStr` and by the two filters. -/
theorem normalize_fix_of_chars (nfd : Str → Str) (isMn : Char → Bool)
    (hnfd : ∀ l : Str, (∀ c ∈ l, lowerAlnum c) → nfd l = l)
    (hmn : ∀ c : Char, lowerAlnum c → isMn c = false)
    (out : Str) (hout : ∀ c ∈ out, lowerAlnum c) :
    normalize_name nfd isMn out = out := by
  unfold normalize_name
  rw [hnfd out hout]
  rw [List.filter_eq_self.mpr
    (fun a ha => lowerAlnum_asciiAlnum (hout a (List.mem_of_mem_filter ha)))]
  rw [List.filter_eq_self.mpr (by
    intro a ha
    rw [Bool.not_eq_true', hmn a (hout a ha)])]
  unfold lowerStr
  rw [List.map_congr_left (fun a ha => pyToLower_fix (hout a ha))]
  exact List.map_id out

/-- Counterpart of `normalize_fix_of_chars` for `normalize_romanization`. -/
theorem normalize_rom_fix_of_chars (nfd : Str → Str) (isMn : Char → Bool)
    (hnfd : ∀ l : Str, (∀ c ∈ l, lowerAlnum c) → nfd l = l)
    (hmn : ∀ c : Char, lowerAlnum c → isMn c = false)
    (out : Str) (hout : ∀ c ∈ out, 97 ≤ c.toNat ∧ c.toNat ≤ 122) :
    normalize_romanization nfd isMn out = out := by
  have hla : ∀ c ∈ out, lowerAlnum c := fun c hc => Or.inl (hout c hc)
  unfold normalize_romanization
  rw [hnfd out hla]
  rw [List.filter_eq_self.mpr
    (fun a ha => lowerAlpha_asciiAlpha (hout a (List.mem_of_mem_filter ha)))]
  rw [List.filter_eq_self.mpr (by
    intro a ha
    rw [Bool.not_eq_true', hmn a (hla a ha)])]
  unfold lowerStr
  rw [List.map_congr_left (fun a ha => pyToLower_fix (hla a ha))]
  exact List.map_id out

/-! ## Claim C5: the romanizer is total and decomposes by base-588/base-28 -/

/-- C5: for every Unicode code point in the Hangul block, the three
decomposition indices `offset / 588`, `(offset % 588) / 28` and `offset % 28`
are in bounds of the 19-, 21- and 28-entry tables, and `romanize_syllable`
equals the trailing-whitespace-trimmed concatenation of the three table
entries; every code point outside the block passes through unchanged; and
romanizing a string is the concatenation of romanizing each character
independently. -/
theorem romanize_syllable_total_correct :
    (∀ c : Char, HANGUL_BASE ≤ c.toNat → c.toNat ≤ HANGUL_LAST →
      (c.toNat - HANGUL_BASE) / 588 < CHO_ROMA.length
      ∧ ((c.toNat - HANGUL_BASE) % 588) / 28 < JUNG_ROMA.length
      ∧ (c.toNat - HANGUL_BASE) % 28 < JONG_ROMA.length
      ∧ romanize_syllable c = pyRstrip (CHO_ROMA.getD ((c.toNat - HANGUL_BASE) / 588) []
          ++ JUNG_ROMA.getD (((c.toNat - HANGUL_BASE) % 588) / 28) []
          ++ JONG_ROMA.getD ((c.toNat - HANGUL_BASE) % 28) []))
    ∧ (∀ c : Char, c.toNat < HANGUL_BASE ∨ HANGUL_LAST < c.toNat →
        romanize_syllable c = [c])
    ∧ (∀ s : Str, romanize_korean_text s = (s.map romanize_syllable).flatten) := by
  refine ⟨?_, ?_, fun s => rfl⟩
  · intro c h1 h2
    have hbase : HANGUL_BASE = 44032 := by decide
    have hlast : HANGUL_LAST = 55203 := by decide
    have hoff : c.toNat - HANGUL_BASE ≤ 11171 := by omega
    refine ⟨?_, ?_, ?_, ?_⟩
    · have : CHO_ROMA.length = 19 := by decide
      rw [this, Nat.div_lt_iff_lt_mul (by norm_num)]
      omega
    · have : JUNG_ROMA.length = 21 := by decide
      rw [this, Nat.div_lt_iff_lt_mul (by norm_num)]
      have h588 : (c.toNat - HANGUL_BASE) % 588 < 588 := Nat.mod_lt _ (by norm_num)
      omega
    · have : JONG_ROMA.length = 28 := by decide
      rw [this]
      exact Nat.mod_lt _ (by norm_num)
    · unfold romanize_syllable
      rw [if_pos ⟨h1, h2⟩]
  · intro c h
    unfold romanize_syllable
    rw [if_neg (by omega)]

/-- Witness for C5 at the concrete syllable `'가'` (`U+AC00`). -/
theorem romanize_syllable_total_correct_w :
    HANGUL_BASE ≤ ('가').toNat ∧ ('가').toNat ≤ HANGUL_LAST ∧
      ((('가').toNat - HANGUL_BASE) / 588 < CHO_ROMA.length
      ∧ ((('가').toNat - HANGUL_BASE) % 588) / 28 < JUNG_ROMA.length
      ∧ (('가').toNat - HANGUL_BASE) % 28 < JONG_ROMA.length
      ∧ romanize_syllable '가' = pyRstrip (CHO_ROMA.getD ((('가').toNat - HANGUL_BASE) / 588) []
          ++ JUNG_ROMA.getD (((('가').toNat - HANGUL_BASE) % 588) / 28) []
          ++ JONG_ROMA.getD ((('가').toNat - HANGUL_BASE) % 28) [])) :=
  ⟨by decide, by decide,
    romanize_syllable_total_correct.1 '가' (by decide) (by decide)⟩

/-! ## Claim C7: the normalizers are idempotent -/

/-- C7: under the Unicode facts that NFD fixes strings of ASCII lower-case
letters and digits and that such characters are not combining marks, both
`normalize_name` and `normalize_romanization` are idempotent on every input
string. -/
theorem normalizers_idempotent (nfd : Str → Str) (isMn : Char → Bool)
    (hnfd : ∀ l : Str, (∀ c ∈ l, lowerAlnum c) → nfd l = l)
    (hmn : ∀ c : Char, lowerAlnum c → isMn c = false) (x : Str) :
    normalize_name nfd isMn (normalize_name nfd isMn x) = normalize_name nfd isMn x
    ∧ normalize_romanization nfd isMn (normalize_romanization nfd isMn x)
      = normalize_romanization nfd isMn x :=
  ⟨normalize_fix_of_chars nfd isMn hnfd hmn _ (normalize_name_chars nfd isMn x),
   normalize_rom_fix_of_chars nfd isMn hnfd hmn _ (normalize_romanization_chars nfd isMn x)⟩

/-- Witness for C7: the identity NFD and the all-false combining-mark test
satisfy the Unicode hypotheses, and idempotence holds at a concrete mixed
input. -/
theorem normalizers_idempotent_w :
    (∀ l : Str, (∀ c ∈ l, lowerAlnum c) → id l = l)
    ∧ (∀ c : Char, lowerAlnum c → (fun _ => false) c = false)
    ∧ (normalize_name id (fun _ => false)
          (normalize_name id (fun _ => false) ("Wilson Smith 42!".toList))
        = normalize_name id (fun _ => false) ("Wilson Smith 42!".toList)
      ∧ normalize_romanization id (fun _ => false)
          (normalize_romanization id (fun _ => false) ("Wilson Smith 42!".toList))
        = normalize_romanization id (fun _ => false) ("Wilson Smith 42!".toList)) :=
  ⟨fun _ _ => rfl, fun _ _ => rfl,
    normalizers_idempotent id (fun _ => false) (fun _ _ => rfl) (fun _ _ => rfl)
      ("Wilson Smith 42!".toList)⟩

/-! ## Claim C8: scoring an input with empty normalization returns zero -/

/-- C8: `compute_similarity_score` is a total function, and whenever the
input name's `normalize_romanization` form is empty it returns exactly `0`,
for every catalog entry. -/
theorem empty_normalized_input_scores_zero (ratioFn : Str → Str → ℚ)
    (nfd : Str → Str) (isMn : Char → Bool) (x : Str) (e : NameEntry)
    (h : normalize_romanization nfd isMn x = []) :
    compute_similarity_score ratioFn nfd isMn x e = 0 := by
  unfold compute_similarity_score
  rw [h]
  rfl

/-- Witness for C8 at the empty input string, whose normalization is empty. -/
theorem empty_normalized_input_scores_zero_w :
    normalize_romanization id (fun _ => false) [] = []
    ∧ compute_similarity_score (fun _ _ => 0) id (fun _ => false) []
        { name := "지훈".toList, hanja := [], meaning := [], category := [],
          initial := [], romanization := RomField.absent, special_match := none } = 0 :=
  ⟨rfl, empty_normalized_input_scores_zero (fun _ _ => 0) id (fun _ => false) [] _ rfl⟩

/-! ## Rounding and fold lemmas for the similarity scorer -/

/-- Half-even rounding lies between floor and ceiling. -/
theorem roundHalfEven_bounds (q : ℚ) :
    ⌊q⌋ ≤ roundHalfEven q ∧ roundHalfEven q ≤ ⌈q⌉ := by
  unfold roundHalfEven
  split
  · rename_i h
    have hceil : ⌈q⌉ = ⌊q⌋ + 1 := by
      have hfr : Int.fract q = 1/2 := by
        unfold Int.fract
        exact h
      have h0 : Int.fract q ≠ 0 := by rw [hfr]; norm_num
      have hca := Int.ceil_eq_add_one_sub_fract h0
      have hc : (⌈q⌉ : ℚ) = ((⌊q⌋ + 1 : ℤ) : ℚ) := by
        push_cast
        rw [hca, hfr]
        linarith
      exact_mod_cast hc
    split <;> omega
  · constructor
    · rw [round_eq]
      exact Int.floor_mono (by linarith)
    · rw [round_eq]
      have h1 : q ≤ (⌈q⌉ : ℚ) := Int.le_ceil q
      rw [Int.floor_le_iff]
      push_cast
      linarith

/-- `pyRound6` moves a value down by less than `10⁻⁶`. -/
theorem pyRound6_ge (q : ℚ) : q - 1/1000000 ≤ pyRound6 q := by
  unfold pyRound6
  have h1 : (⌊q * 1000000⌋ : ℚ) ≤ (roundHalfEven (q * 1000000) : ℚ) := by
    exact_mod_cast (roundHalfEven_bounds (q * 1000000)).1
  have h2 : q * 1000000 - 1 < (⌊q * 1000000⌋ : ℚ) := Int.sub_one_lt_floor _
  rw [le_div_iff (by norm_num : (0:ℚ) < 1000000)]
  have h3 : (q - 1/1000000) * 1000000 = q * 1000000 - 1 := by ring
  rw [h3]
  linarith

/-- `pyRound6` of a non-negative value is non-negative. -/
theorem pyRound6_nonneg {q : ℚ} (h : 0 ≤ q) : 0 ≤ pyRound6 q := by
  unfold pyRound6
  have h1 : (0 : ℤ) ≤ ⌊q * 1000000⌋ := Int.floor_nonneg.mpr (by positivity)
  have h2 := (roundHalfEven_bounds (q * 1000000)).1
  have : (0 : ℚ) ≤ (roundHalfEven (q * 1000000) : ℚ) := by exact_mod_cast le_trans h1 h2
  positivity

/-- `pyRound6` never moves a value past the bound `23/20 = 1.15`. -/
theorem pyRound6_le {q : ℚ} (h : q ≤ 23/20) : pyRound6 q ≤ 23/20 := by
  unfold pyRound6
  have h1 : ⌈q * 1000000⌉ ≤ (1150000 : ℤ) := by
    rw [Int.ceil_le]
    push_cast
    linarith
  have h2 := (roundHalfEven_bounds (q * 1000000)).2
  have h3 : (roundHalfEven (q * 1000000) : ℚ) ≤ 1150000 := by
    exact_mod_cast le_trans h2 h1
  rw [div_le_iff (by norm_num)]
  linarith

/-- The adjusted ratio of a variant against itself: both bonuses apply and
the length penalty vanishes. -/
theorem adjustRatio_self (r : ℚ) (en : Str) : adjustRatio r en en = r + 12/100 := by
  unfold adjustRatio
  rw [if_pos rfl, if_pos rfl]
  simp only [sub_self, Int.natAbs_zero, Nat.cast_zero, zero_mul]
  rw [min_eq_right (by norm_num)]
  ring

/-- The length-mismatch penalty is non-negative, so an adjusted ratio is at
most the base ratio plus the two bonuses. -/
theorem adjustRatio_le {r : ℚ} (en cn : Str) (hr : r ≤ 1) :
    adjustRatio r en cn ≤ 28/25 := by
  unfold adjustRatio
  have hpen : (0 : ℚ) ≤ min (15/100) ((((en.length : ℤ) - (cn.length : ℤ)).natAbs : ℚ) * (15/1000)) :=
    le_min (by norm_num) (by positivity)
  split <;> split <;> linarith

/-- The best-score fold never drops below its starting accumulator. -/
theorem foldl_variantStep_ge_init (ratioFn : Str → Str → ℚ) (nfd : Str → Str)
    (isMn : Char → Bool) (en : Str) (l : List Str) (init : ℚ) :
    init ≤ l.foldl (variantStep ratioFn nfd isMn en) init := by
  induction l generalizing init with
  | nil => exact le_refl init
  | cons c rest ih =>
    refine le_trans ?_ (ih (variantStep ratioFn nfd isMn en init c))
    unfold variantStep
    dsimp only
    split
    · exact le_refl init
    · exact le_max_left _ _

/-- The best-score fold dominates the adjusted ratio of every variant in the
list whose normalization is non-empty. -/
theorem foldl_variantStep_ge_mem (ratioFn : Str → Str → ℚ) (nfd : Str → Str)
    (isMn : Char → Bool) (en : Str) {l : List Str} {v : Str} (hv : v ∈ l)
    (hne : normalize_romanization nfd isMn v ≠ []) (init : ℚ) :
    adjustRatio (ratioFn en (normalize_romanization nfd isMn v)) en
        (normalize_romanization nfd isMn v)
      ≤ l.foldl (variantStep ratioFn nfd isMn en) init := by
  induction l generalizing init with
  | nil => cases hv
  | cons c rest ih =>
    rcases List.mem_cons.mp hv with rfl | h
    · refine le_trans ?_ (foldl_variantStep_ge_init ratioFn nfd isMn en rest _)
      unfold variantStep
      dsimp only
      rw [if_neg hne]
      exact le_max_right _ _
    · exact ih h _

/-- The best-score fold stays below any bound that dominates the starting
accumulator and every variant's adjusted ratio. -/
theorem foldl_variantStep_le (ratioFn : Str → Str → ℚ) (nfd : Str → Str)
    (isMn : Char → Bool) (en : Str) (l : List Str) {B : ℚ}
    (hB : ∀ cn : Str, adjustRatio (ratioFn en cn) en cn ≤ B)
    {init : ℚ} (hinit : init ≤ B) :
    l.foldl (variantStep ratioFn nfd isMn en) init ≤ B := by
  induction l generalizing init with
  | nil => exact hinit
  | cons c rest ih =>
    refine ih ?_
    unfold variantStep
    dsimp only
    split
    · exact hinit
    · exact max_le hinit (hB _)

/-! ## Claim C6: an exactly-matching romanization variant scores at least 1 -/

/-- C6: whenever the input's `normalize_romanization` form is non-empty and
some candidate variant of the entry normalizes to exactly that form, the
similarity score is at least `1`: the base ratio of identical strings is `1`
(the documented behaviour of the sequence matcher), both the first- and
last-character bonuses apply, and the length penalty is zero. -/
theorem exact_variant_scores_at_least_one (ratioFn : Str → Str → ℚ)
    (nfd : Str → Str) (isMn : Char → Bool) (x v : Str) (e : NameEntry)
    (hratio : ∀ s : Str, ratioFn s s = 1)
    (hv : v ∈ get_candidate_romanization e)
    (heq : normalize_romanization nfd isMn v = normalize_romanization nfd isMn x)
    (hne : normalize_romanization nfd isMn x ≠ []) :
    1 ≤ compute_similarity_score ratioFn nfd isMn x e := by
  simp only [compute_similarity_score]
  rw [if_neg hne]
  have hfold := foldl_variantStep_ge_mem ratioFn nfd isMn
    (normalize_romanization nfd isMn x) hv (by rw [heq]; exact hne) 0
  rw [heq, adjustRatio_self, hratio] at hfold
  have hb2 : (28/25 : ℚ) ≤
      (if upperStr e.initial = upperStr ((normalize_romanization nfd isMn x).take 1)
        then (get_candidate_romanization e).foldl
          (variantStep ratioFn nfd isMn (normalize_romanization nfd isMn x)) 0 + 3/100
        else (get_candidate_romanization e).foldl
          (variantStep ratioFn nfd isMn (normalize_romanization nfd isMn x)) 0) := by
    split <;> linarith
  have := pyRound6_ge (if upperStr e.initial = upperStr ((normalize_romanization nfd isMn x).take 1)
        then (get_candidate_romanization e).foldl
          (variantStep ratioFn nfd isMn (normalize_romanization nfd isMn x)) 0 + 3/100
        else (get_candidate_romanization e).foldl
          (variantStep ratioFn nfd isMn (normalize_romanization nfd isMn x)) 0)
  linarith

/-- Witness for C6: the entry whose romanization list contains exactly
`"Jihun"`, matched against the input `"Jihun"`, with the indicator
ratio function (which satisfies the identical-strings axiom of the
sequence matcher). -/
theorem exact_variant_scores_at_least_one_w :
    (∀ s : Str, (fun a b : Str => if a = b then (1 : ℚ) else 0) s s = 1)
    ∧ ("Jihun".toList ∈ get_candidate_romanization
        { name := "지훈".toList, hanja := [], meaning := [], category := [],
          initial := "J".toList, romanization := RomField.many ["Jihun".toList],
          special_match := none })
    ∧ normalize_romanization id (fun _ => false) ("Jihun".toList)
        = normalize_romanization id (fun _ => false) ("Jihun".toList)
    ∧ normalize_romanization id (fun _ => false) ("Jihun".toList) ≠ []
    ∧ 1 ≤ compute_similarity_score (fun a b : Str => if a = b then (1 : ℚ) else 0)
        id (fun _ => false) ("Jihun".toList)
        { name := "지훈".toList, hanja := [], meaning := [], category := [],
          initial := "J".toList, romanization := RomField.many ["Jihun".toList],
          special_match := none } :=
  ⟨fun s => if_pos rfl, by decide, rfl, by decide,
    exact_variant_scores_at_least_one (fun a b : Str => if a = b then (1 : ℚ) else 0)
      id (fun _ => false) ("Jihun".toList) ("Jihun".toList) _
      (fun s => if_pos rfl) (by decide) rfl (by decide)⟩

/-! ## Claim C10: the similarity score lies in `[0, 1.15]` -/

/-- C10: for every input string and entry, provided the base sequence ratio
lies in `[0, 1]` (the documented range of the sequence matcher), the
similarity score lies in the closed interval `[0, 23/20]`: each per-variant
adjusted ratio is at most `1 + 0.08 + 0.04`, the best score is a maximum
seeded with `0` and hence never negative despite the length penalty, and the
initial-letter bonus adds at most `0.03`. -/
theorem similarity_score_bounded (ratioFn : Str → Str → ℚ) (nfd : Str → Str)
    (isMn : Char → Bool) (x : Str) (e : NameEntry)
    (hr : ∀ a b : Str, 0 ≤ ratioFn a b ∧ ratioFn a b ≤ 1) :
    0 ≤ compute_similarity_score ratioFn nfd isMn x e
    ∧ compute_similarity_score ratioFn nfd isMn x e ≤ 23/20 := by
  simp only [compute_similarity_score]
  split
  · norm_num
  · have hub := foldl_variantStep_le ratioFn nfd isMn
      (normalize_romanization nfd isMn x) (get_candidate_romanization e)
      (fun cn => adjustRatio_le (normalize_romanization nfd isMn x) cn
        (hr (normalize_romanization nfd isMn x) cn).2)
      (le_of_lt (by norm_num : (0:ℚ) < 28/25))
    have hlb := foldl_variantStep_ge_init ratioFn nfd isMn
      (normalize_romanization nfd isMn x) (get_candidate_romanization e) 0
    constructor
    · apply pyRound6_nonneg
      split <;> linarith
    · apply pyRound6_le
      split <;> linarith

/-- Witness for C10 with the constant-zero ratio function (which lies in
`[0, 1]`) at a concrete input and entry. -/
theorem similarity_score_bounded_w :
    (∀ a b : Str, 0 ≤ (fun _ _ : Str => (0 : ℚ)) a b ∧ (fun _ _ : Str => (0 : ℚ)) a b ≤ 1)
    ∧ (0 ≤ compute_similarity_score (fun _ _ : Str => (0 : ℚ)) id (fun _ => false)
          ("Wilson".toList)
          { name := "지훈".toList, hanja := [], meaning := [], category := [],
            initial := "J".toList, romanization := RomField.many ["Jihun".toList],
            special_match := none }
      ∧ compute_similarity_score (fun _ _ : Str => (0 : ℚ)) id (fun _ => false)
          ("Wilson".toList)
          { name := "지훈".toList, hanja := [], meaning := [], category := [],
            initial := "J".toList, romanization := RomField.many ["Jihun".toList],
            special_match := none } ≤ 23/20) :=
  ⟨fun _ _ => ⟨le_refl 0, zero_le_one⟩,
    similarity_score_bounded (fun _ _ : Str => (0 : ℚ)) id (fun _ => false)
      ("Wilson".toList) _ (fun _ _ => ⟨le_refl 0, zero_le_one⟩)⟩

/-! ## Walk structure lemmas -/

/-- One walk step either leaves the state unchanged or appends the scored
entry at the end of the selections. -/
theorem walkStep_cases (st : WalkState) (c : Scored) :
    walkStep st c = st
    ∨ (walkStep st c).selections = st.selections ++ [c.2.2] := by
  unfold walkStep
  dsimp only
  split
  · exact Or.inl rfl
  · split
    · exact Or.inl rfl
    · split
      · exact Or.inl rfl
      · split
        · exact Or.inl rfl
        · exact Or.inr rfl

/-- The walk only ever appends to the selections it starts from, and when it
appends nothing its seen-names set is unchanged. -/
theorem walk_prefix (l : List Scored) (st : WalkState) :
    ∃ app, (l.foldl walkStep st).selections = st.selections ++ app
      ∧ (app = [] → (l.foldl walkStep st).seenN = st.seenN) := by
  induction l generalizing st with
  | nil => exact ⟨[], by simp, fun _ => rfl⟩
  | cons c rest ih =>
    rw [List.foldl_cons]
    rcases walkStep_cases st c with h | h
    · rw [h]
      exact ih st
    · obtain ⟨app, happ, _⟩ := ih (walkStep st c)
      refine ⟨c.2.2 :: app, ?_, fun hx => nomatch hx⟩
      rw [happ, h, List.append_assoc]
      rfl

/-- The walk-and-backfill tail keeps the seeded selections as a prefix, so
its first element is the first seeded entry. -/
theorem selectTail_head (catalog : List NameEntry) (e0 : NameEntry)
    (sel : List NameEntry) (ranked : List Scored)
    (shuffleFn : List NameEntry → List NameEntry) :
    (selectTail catalog (e0 :: sel) ranked shuffleFn).head? = some e0 := by
  simp only [selectTail]
  obtain ⟨app, happ, -⟩ := walk_prefix ranked ⟨e0 :: sel, [], [], []⟩
  rw [happ]
  split <;> rfl

/-! ## Claim C2: the first qualifying special match is seeded first -/

/-- C2: when the catalog's first special-match hit (in catalog order, under
`normalize_name`) is `e0`, the special pass seeds exactly `[e0]` — no other
qualifying entry is seeded — and `e0` is the first element of the selection
result. -/
theorem special_match_seeded_first (namesData : Str → List NameEntry)
    (ratioFn : Str → Str → ℚ) (nfd : Str → Str) (isMn : Char → Bool)
    (tieBreak : ℕ → ℚ) (shuffleFn : List NameEntry → List NameEntry)
    (original_name gender : Str) (e0 : NameEntry)
    (h : (namesData gender).find?
        (isSpecialHit nfd isMn (normalize_name nfd isMn original_name)) = some e0) :
    specialSelections nfd isMn (namesData gender)
        (normalize_name nfd isMn original_name) = [e0]
    ∧ (select_korean_names namesData ratioFn nfd isMn tieBreak shuffleFn
        original_name gender).head? = some e0 := by
  have hsp : specialSelections nfd isMn (namesData gender)
      (normalize_name nfd isMn original_name) = [e0] := by
    unfold specialSelections
    rw [h]
  refine ⟨hsp, ?_⟩
  have hne : namesData gender ≠ [] := by
    intro hnil
    rw [hnil] at h
    exact nomatch h
  simp only [select_korean_names]
  rw [if_neg hne, hsp]
  exact selectTail_head _ e0 [] _ shuffleFn

/-- A plain entry preceding the special matches in the C2 witness catalog. -/
def c2Plain : NameEntry :=
  { name := "하준".toList, hanja := [], meaning := [], category := "Honor".toList,
    initial := "H".toList, romanization := RomField.many ["Hajun".toList],
    special_match := none }

/-- The first qualifying special-match entry of the C2 witness catalog. -/
def c2Special : NameEntry :=
  { name := "서윤".toList, hanja := [], meaning := [], category := "Grace".toList,
    initial := "S".toList, romanization := RomField.many ["Seoyun".toList],
    special_match := some ("Wilson Smith".toList) }

/-- A second special-match entry that also qualifies (its trigger also
normalizes to `"wilsonsmith"`) but must not be seeded. -/
def c2Special2 : NameEntry :=
  { name := "민서".toList, hanja := [], meaning := [], category := "Wisdom".toList,
    initial := "M".toList, romanization := RomField.many ["Minseo".toList],
    special_match := some ("Wilson-Smith".toList) }

/-- Witness for C2: on a catalog holding two qualifying special matches, the
first in catalog order is seeded alone and heads the result. -/
theorem special_match_seeded_first_w :
    ((fun _ : Str => [c2Plain, c2Special, c2Special2]) ("male".toList)).find?
        (isSpecialHit id (fun _ => false)
          (normalize_name id (fun _ => false) ("Wilson Smith".toList)))
      = some c2Special
    ∧ (specialSelections id (fun _ => false)
          ((fun _ : Str => [c2Plain, c2Special, c2Special2]) ("male".toList))
          (normalize_name id (fun _ => false) ("Wilson Smith".toList)) = [c2Special]
      ∧ (select_korean_names (fun _ => [c2Plain, c2Special, c2Special2])
          (fun _ _ => 0) id (fun _ => false) (fun _ => 0) id
          ("Wilson Smith".toList) ("male".toList)).head? = some c2Special) :=
  ⟨by decide,
    special_match_seeded_first (fun _ => [c2Plain, c2Special, c2Special2])
      (fun _ _ => 0) id (fun _ => false) (fun _ => 0) id
      ("Wilson Smith".toList) ("male".toList) c2Special (by decide)⟩

/-! ## Claim C9: the selection is empty exactly when the catalog is empty -/

/-- With a non-empty catalog, the walk-then-backfill tail of the selection
engine never produces an empty result: either the walk state is non-empty,
or the backfill pool is the whole catalog. -/
theorem selectTail_nonempty (catalog sel : List NameEntry)
    (ranked : List Scored) (shuffleFn : List NameEntry → List NameEntry)
    (hsh : ∀ l : List NameEntry, (shuffleFn l).Perm l) (hcat : catalog ≠ []) :
    selectTail catalog sel ranked shuffleFn ≠ [] := by
  simp only [selectTail]
  obtain ⟨app, happ, hN⟩ := walk_prefix ranked ⟨sel, [], [], []⟩
  have hsel : (WalkState.mk sel [] [] []).selections = sel := rfl
  rw [hsel] at happ
  intro h
  rw [List.take_eq_nil_iff] at h
  rcases h with h | h
  · exact nomatch h
  · revert h
    split
    · intro h
      rw [List.append_eq_nil] at h
      obtain ⟨hwalk, htake⟩ := h
      rw [happ, List.append_eq_nil] at hwalk
      obtain ⟨hseed, happnil⟩ := hwalk
      have hseen : (ranked.foldl walkStep ⟨sel, [], [], []⟩).seenN = [] := hN happnil
      rw [List.take_eq_nil_iff] at htake
      rcases htake with h5 | hshuf
      · rw [happ, hseed, happnil] at h5
        exact nomatch h5
      · have hperm := hsh (catalog.filter
          (fun e => !(decide (e ∈ (ranked.foldl walkStep ⟨sel, [], [], []⟩).selections))
            && !(decide (e.name ∈ (ranked.foldl walkStep ⟨sel, [], [], []⟩).seenN))))
        rw [hshuf] at hperm
        have hleft := hperm.symm.eq_nil
        rw [happ, hseen, hseed, happnil] at hleft
        rw [List.filter_eq_self.mpr (by
          intro a _
          simp)] at hleft
        exact hcat hleft
    · intro hfull
      rename_i hlen
      rw [happ] at hfull
      rw [List.append_eq_nil] at hfull
      exact hlen (by rw [happ, hfull.1, hfull.2]; simp)

/-- C9: for every input name, the selection result is empty if and only if
the gender's catalog is empty (the caller maps the empty result to a
generation-failure error); with a non-empty catalog the backfill guarantees
a non-empty result.  `shuffleFn` is assumed to permute its input, as
`random.shuffle` does. -/
theorem select_empty_iff_empty_catalog (namesData : Str → List NameEntry)
    (ratioFn : Str → Str → ℚ) (nfd : Str → Str) (isMn : Char → Bool)
    (tieBreak : ℕ → ℚ) (shuffleFn : List NameEntry → List NameEntry)
    (original_name gender : Str)
    (hsh : ∀ l : List NameEntry, (shuffleFn l).Perm l) :
    select_korean_names namesData ratioFn nfd isMn tieBreak shuffleFn
        original_name gender = []
    ↔ namesData gender = [] := by
  constructor
  · intro h
    by_contra hne
    simp only [select_korean_names] at h
    rw [if_neg hne] at h
    exact selectTail_nonempty _ _ _ shuffleFn hsh hne h
  · intro h
    simp only [select_korean_names]
    rw [if_pos h]

/-- Witness for C9: the identity shuffle is a permutation, and with an empty
catalog the selection result is empty. -/
theorem select_empty_iff_empty_catalog_w :
    (∀ l : List NameEntry, (id l).Perm l)
    ∧ (select_korean_names (fun _ => []) (fun _ _ => 0) id (fun _ => false)
          (fun _ => 0) id ("Wilson".toList) ("male".toList) = []
        ↔ (fun _ : Str => ([] : List NameEntry)) ("male".toList) = []) :=
  ⟨fun l => List.Perm.refl l,
    select_empty_iff_empty_catalog (fun _ => []) (fun _ _ => 0) id (fun _ => false)
      (fun _ => 0) id ("Wilson".toList) ("male".toList)
      (fun l => List.Perm.refl l)⟩

/-! ## Claim C3: the append condition of the diversity walk -/

/-- Modelled from the spec: the diversity walk exactly as claim C3 words it,
where "already-chosen" includes the seeded special-match entry: an entry is
appended exactly when its name is the name of no already-chosen entry, while
fewer than 3 are chosen its initial differs from every already-chosen
entry's initial, from 3 on its category differs from every already-chosen
entry's category, and the walk stops at 5. -/
def specWalkStep (chosen : List NameEntry) (c : Scored) : List NameEntry :=
  if 5 ≤ chosen.length then chosen
  else
    let e := c.2.2
    if ∃ p ∈ chosen, p.name = e.name then chosen
    else if chosen.length < 3 ∧ ∃ p ∈ chosen, p.initial = e.initial then chosen
    else if 3 ≤ chosen.length ∧ ∃ p ∈ chosen, p.category = e.category then chosen
    else chosen ++ [e]

/-- Modelled from the spec: the whole diversity walk of claim C3, folded
over the ranked candidates starting from the seeded result. -/
def diversityWalkSpec (seed : List NameEntry) (l : List Scored) : List NameEntry :=
  l.foldl specWalkStep seed

/-- One step of the walk as the code actually behaves: only entries the walk
itself appended are consulted for name/initial/category uniqueness (the
seed's fields are not in the `seen` sets), empty-string values are never
recorded, and the seed counts toward the size thresholds only. -/
def amendedStep (seedLen : ℕ) (app : List NameEntry) (c : Scored) : List NameEntry :=
  if 5 ≤ seedLen + app.length then app
  else
    let e := c.2.2
    if ∃ p ∈ app, p.name = e.name ∧ p.name ≠ [] then app
    else if (∃ p ∈ app, p.initial = e.initial ∧ p.initial ≠ [])
        ∧ seedLen + app.length < 3 then app
    else if (∃ p ∈ app, p.category = e.category ∧ p.category ≠ [])
        ∧ 3 ≤ seedLen + app.length then app
    else app ++ [e]

/-- The diversity walk as the code actually behaves, in declarative form:
the seed, followed by the entries the amended condition appends. -/
def amendedWalk (seed : List NameEntry) (l : List Scored) : List NameEntry :=
  seed ++ l.foldl (amendedStep seed.length) []

/-- Appending to a `seen` set records the field only when non-empty, and
membership afterwards means some appended entry carries that non-empty
field value. -/
theorem seen_update_iff (app : List NameEntry) (e : NameEntry) (old : List Str)
    (f : NameEntry → Str)
    (hold : ∀ s, s ∈ old ↔ ∃ p ∈ app, f p = s ∧ f p ≠ []) (s : Str) :
    s ∈ (if f e ≠ [] then f e :: old else old)
      ↔ ∃ p ∈ app ++ [e], f p = s ∧ f p ≠ [] := by
  split
  · rename_i hne
    simp only [List.mem_cons, hold, List.mem_append, List.not_mem_nil, or_false]
    constructor
    · rintro (rfl | ⟨p, hp, hfp, hfne⟩)
      · exact ⟨e, Or.inr rfl, rfl, hne⟩
      · exact ⟨p, Or.inl hp, hfp, hfne⟩
    · rintro ⟨p, hp | rfl, hfp, hfne⟩
      · exact Or.inr ⟨p, hp, hfp, hfne⟩
      · exact Or.inl hfp.symm
  · rename_i hne
    have hfe : f e = [] := not_not.mp hne
    simp only [hold, List.mem_append, List.mem_cons, List.not_mem_nil, or_false]
    constructor
    · rintro ⟨p, hp, hfp, hfne⟩
      exact ⟨p, Or.inl hp, hfp, hfne⟩
    · rintro ⟨p, hp | rfl, hfp, hfne⟩
      · exact ⟨p, hp, hfp, hfne⟩
      · exact absurd hfe hfne

/-- The code's walk, started from a seeded state with empty `seen` sets,
agrees with the amended declarative walk: the invariant ties each `seen`
set to the entries appended so far. -/
theorem walk_amended_aux (l : List Scored) : ∀ (app : List NameEntry)
    (st : WalkState) (seed : List NameEntry),
    st.selections = seed ++ app →
    (∀ s, s ∈ st.seenN ↔ ∃ p ∈ app, NameEntry.name p = s ∧ NameEntry.name p ≠ []) →
    (∀ s, s ∈ st.seenI ↔ ∃ p ∈ app, NameEntry.initial p = s ∧ NameEntry.initial p ≠ []) →
    (∀ s, s ∈ st.seenC ↔ ∃ p ∈ app, NameEntry.category p = s ∧ NameEntry.category p ≠ []) →
    (l.foldl walkStep st).selections = seed ++ l.foldl (amendedStep seed.length) app := by
  induction l with
  | nil =>
    intro app st seed hsel _ _ _
    simpa using hsel
  | cons c rest ih =>
    intro app st seed hsel hN hI hC
    rw [List.foldl_cons, List.foldl_cons]
    have hlen : st.selections.length = seed.length + app.length := by
      rw [hsel, List.length_append]
    by_cases h5 : 5 ≤ seed.length + app.length
    · have hw : walkStep st c = st := by
        unfold walkStep
        rw [if_pos (by rw [hlen]; exact h5)]
      have ha : amendedStep seed.length app c = app := by
        unfold amendedStep
        rw [if_pos h5]
      rw [hw, ha]
      exact ih app st seed hsel hN hI hC
    · have h5' : ¬ 5 ≤ st.selections.length := by
        rw [hlen]
        exact h5
      by_cases hn : ∃ p ∈ app, NameEntry.name p = c.2.2.name ∧ NameEntry.name p ≠ []
      · have hw : walkStep st c = st := by
          unfold walkStep
          rw [if_neg h5']
          dsimp only
          rw [if_pos ((hN c.2.2.name).mpr hn)]
        have ha : amendedStep seed.length app c = app := by
          unfold amendedStep
          rw [if_neg h5]
          dsimp only
          rw [if_pos hn]
        rw [hw, ha]
        exact ih app st seed hsel hN hI hC
      · have hnn : ¬ c.2.2.name ∈ st.seenN := fun hmem => hn ((hN _).mp hmem)
        by_cases hi : (∃ p ∈ app, NameEntry.initial p = c.2.2.initial ∧ NameEntry.initial p ≠ [])
            ∧ seed.length + app.length < 3
        · have hw : walkStep st c = st := by
            unfold walkStep
            rw [if_neg h5']
            dsimp only
            rw [if_neg hnn, if_pos ⟨(hI _).mpr hi.1, by rw [hlen]; exact hi.2⟩]
          have ha : amendedStep seed.length app c = app := by
            unfold amendedStep
            rw [if_neg h5]
            dsimp only
            rw [if_neg hn, if_pos hi]
          rw [hw, ha]
          exact ih app st seed hsel hN hI hC
        · have hii : ¬ (c.2.2.initial ∈ st.seenI ∧ st.selections.length < 3) := by
            rintro ⟨hm, hlt⟩
            rw [hlen] at hlt
            exact hi ⟨(hI _).mp hm, hlt⟩
          by_cases hc : (∃ p ∈ app, NameEntry.category p = c.2.2.category ∧ NameEntry.category p ≠ [])
              ∧ 3 ≤ seed.length + app.length
          · have hw : walkStep st c = st := by
              unfold walkStep
              rw [if_neg h5']
              dsimp only
              rw [if_neg hnn, if_neg hii,
                if_pos ⟨(hC _).mpr hc.1, by rw [hlen]; exact hc.2⟩]
            have ha : amendedStep seed.length app c = app := by
              unfold amendedStep
              rw [if_neg h5]
              dsimp only
              rw [if_neg hn, if_neg hi, if_pos hc]
            rw [hw, ha]
            exact ih app st seed hsel hN hI hC
          · have hcc : ¬ (c.2.2.category ∈ st.seenC ∧ 3 ≤ st.selections.length) := by
              rintro ⟨hm, hge⟩
              rw [hlen] at hge
              exact hc ⟨(hC _).mp hm, hge⟩
            have hw : walkStep st c =
                { selections := st.selections ++ [c.2.2]
                  seenN := if c.2.2.name ≠ [] then c.2.2.name :: st.seenN else st.seenN
                  seenI := if c.2.2.initial ≠ [] then c.2.2.initial :: st.seenI else st.seenI
                  seenC := if c.2.2.category ≠ [] then c.2.2.category :: st.seenC else st.seenC } := by
              unfold walkStep
              rw [if_neg h5']
              dsimp only
              rw [if_neg hnn, if_neg hii, if_neg hcc]
            have ha : amendedStep seed.length app c = app ++ [c.2.2] := by
              unfold amendedStep
              rw [if_neg h5]
              dsimp only
              rw [if_neg hn, if_neg hi, if_neg hc]
            rw [hw, ha]
            refine ih (app ++ [c.2.2]) _ seed ?_ ?_ ?_ ?_
            · dsimp only
              rw [hsel, List.append_assoc]
            · exact seen_update_iff app c.2.2 st.seenN NameEntry.name hN
            · exact seen_update_iff app c.2.2 st.seenI NameEntry.initial hI
            · exact seen_update_iff app c.2.2 st.seenC NameEntry.category hC

/-- C3 (amended): the diversity walk of the code agrees with the amended
declarative description: the seed counts toward the size thresholds, but
only entries appended by the walk itself — and only their non-empty values —
are consulted for name, initial and category uniqueness. -/
theorem diversity_walk_appended_only (seed : List NameEntry) (l : List Scored) :
    (l.foldl walkStep ⟨seed, [], [], []⟩).selections = amendedWalk seed l := by
  unfold amendedWalk
  refine walk_amended_aux l [] ⟨seed, [], [], []⟩ seed (by simp) ?_ ?_ ?_
  · intro s
    simp
  · intro s
    simp
  · intro s
    simp

/-- The seeded special-match entry and a candidate sharing its initial. -/
def c3Seed : NameEntry :=
  { name := "지훈".toList, hanja := [], meaning := [], category := "Honor".toList,
    initial := "J".toList, romanization := RomField.absent,
    special_match := some ("Wilson Smith".toList) }

/-- A scored candidate with a fresh name but the seed's initial `"J"`. -/
def c3Cand : NameEntry :=
  { name := "서준".toList, hanja := [], meaning := [], category := "Grace".toList,
    initial := "J".toList, romanization := RomField.absent, special_match := none }

/-- Counterexample to C3 as stated: with the result seeded by the
special-match entry (first conjunct shows the seeding), the code's walk
appends a candidate whose `initial` equals the seed's while the result has
fewer than 3 entries, whereas the walk described by the claim — with the
seed counted among the already-chosen entries — skips it. -/
theorem diversity_walk_seed_counterexample :
    specialSelections id (fun _ => false) [c3Seed, c3Cand]
        (normalize_name id (fun _ => false) ("Wilson Smith".toList)) = [c3Seed]
    ∧ ([((1:ℚ), (0:ℚ), c3Cand)].foldl walkStep ⟨[c3Seed], [], [], []⟩).selections
        = [c3Seed, c3Cand]
    ∧ diversityWalkSpec [c3Seed] [((1:ℚ), (0:ℚ), c3Cand)] = [c3Seed]
    ∧ c3Cand.initial = c3Seed.initial
    ∧ c3Cand.name ≠ c3Seed.name := by
  refine ⟨by decide, by decide, by decide, by decide, by decide⟩

/-! ## Claim C1: duplicate names can be returned alongside a special match -/

/-- The special-match entry of the C1 failing input: name `"지훈"`. -/
def c1Special : NameEntry :=
  { name := "지훈".toList, hanja := [], meaning := [], category := "Honor".toList,
    initial := "J".toList, romanization := RomField.many ["Jihun".toList],
    special_match := some ("Wilson Smith".toList) }

/-- A plain catalog entry sharing the special entry's name `"지훈"`. -/
def c1Plain : NameEntry :=
  { name := "지훈".toList, hanja := [], meaning := [], category := "Grace".toList,
    initial := "S".toList, romanization := RomField.many ["Seoyun".toList],
    special_match := none }

/-- C1 failing input, evaluated: on the two-entry catalog whose special
match shares its `name` with the other entry, the input `"Wilson Smith"`
returns both entries — two entries with the same `name` value — because the
special-match seed's name is never added to the seen-names set. -/
theorem select_returns_duplicate_names :
    select_korean_names (fun _ => [c1Special, c1Plain]) (fun _ _ => 0) id
        (fun _ => false) (fun _ => 0) id ("Wilson Smith".toList) ("male".toList)
      = [c1Special, c1Plain]
    ∧ c1Special.name = c1Plain.name ∧ c1Special ≠ c1Plain := by
  refine ⟨by decide, by decide, by decide⟩

/-! ## Claim C4: the daily fortune is deterministic in name and date -/

/-- Unfolding equation of `fortuneAux` at a cons cell. -/
theorem fortuneAux_cons {R : Type} (rChoice : R → ℕ → ℕ × R) (r : R)
    (cd : FortuneCategory) (rest : List FortuneCategory) :
    fortuneAux rChoice r (cd :: rest) =
      if cd.messages = [] then fortuneAux rChoice r rest
      else
        let pick := rChoice r cd.messages.length
        let mo := cd.messages.getD pick.1 (PyMessage.raw [])
        let pair : Str × Str :=
          match mo with
          | PyMessage.obj en ko => (en, ko)
          | PyMessage.raw s => (s, [])
        { category := cd.category
          category_ko := cd.category_ko.getD cd.category
          message := pair.1
          message_ko := pair.2 } :: fortuneAux rChoice pick.2 rest := rfl

/-- Each non-empty fortune category contributes exactly one result, in
catalog order. -/
theorem fortuneAux_categories {R : Type} (rChoice : R → ℕ → ℕ × R)
    (data : List FortuneCategory) : ∀ r : R,
    (fortuneAux rChoice r data).map FortuneResult.category
      = (data.filter (fun cd => !(decide (cd.messages = [])))).map FortuneCategory.category := by
  induction data with
  | nil => intro r; rfl
  | cons cd rest ih =>
    intro r
    rw [fortuneAux_cons]
    by_cases hm : cd.messages = []
    · rw [if_pos hm, List.filter_cons_of_neg (by simp [hm])]
      exact ih r
    · rw [if_neg hm, List.filter_cons_of_pos (by simp [hm])]
      rw [List.map_cons, List.map_cons, ih]

/-- C4: the daily fortune is a pure function of the pair (name, date): any
two evaluations whose seed string (the concatenation of name and date)
agrees yield identical ordered result lists, whatever the digest function
and however the call-local generator behaves; and the result lists the
categories with at least one message, in catalog order.  The generator
state is created inside the call from the digest of `name ++ date` and
threaded locally; no state outside the call is read or written. -/
theorem daily_fortune_deterministic {R : Type} (rInit : Str → R)
    (rChoice : R → ℕ → ℕ × R) (md5hex : Str → Str)
    (data : List FortuneCategory) (n1 t1 n2 t2 : Str)
    (h : n1 ++ t1 = n2 ++ t2) :
    get_daily_fortune rInit rChoice md5hex data n1 t1
      = get_daily_fortune rInit rChoice md5hex data n2 t2
    ∧ (get_daily_fortune rInit rChoice md5hex data n1 t1).map FortuneResult.category
      = (data.filter (fun cd => !(decide (cd.messages = [])))).map FortuneCategory.category := by
  unfold get_daily_fortune
  rw [h]
  exact ⟨rfl, fortuneAux_categories rChoice data _⟩

/-- Witness for C4: two calls with the name `"지훈"` and the date
`"2024-01-01"` against a one-category catalog. -/
theorem daily_fortune_deterministic_w :
    ("지훈".toList ++ "2024-01-01".toList = "지훈".toList ++ "2024-01-01".toList)
    ∧ (get_daily_fortune (fun _ => (0 : ℕ)) (fun r _ => (0, r)) id
          [⟨"Love".toList, none, [PyMessage.obj "a".toList "b".toList]⟩]
          ("지훈".toList) ("2024-01-01".toList)
        = get_daily_fortune (fun _ => (0 : ℕ)) (fun r _ => (0, r)) id
          [⟨"Love".toList, none, [PyMessage.obj "a".toList "b".toList]⟩]
          ("지훈".toList) ("2024-01-01".toList)
      ∧ (get_daily_fortune (fun _ => (0 : ℕ)) (fun r _ => (0, r)) id
          [⟨"Love".toList, none, [PyMessage.obj "a".toList "b".toList]⟩]
          ("지훈".toList) ("2024-01-01".toList)).map FortuneResult.category
        = ([⟨"Love".toList, none, [PyMessage.obj "a".toList "b".toList]⟩].filter
            (fun cd => !(decide (FortuneCategory.messages cd = [])))).map
            FortuneCategory.category) :=
  ⟨rfl, daily_fortune_deterministic (fun _ => (0 : ℕ)) (fun r _ => (0, r)) id
    [⟨"Love".toList, none, [PyMessage.obj "a".toList "b".toList]⟩]
    ("지훈".toList) ("2024-01-01".toList) ("지훈".toList) ("2024-01-01".toList) rfl⟩

end Naeilum
